import Mathlib

/-
  Verification development for the connpool repository.

  Shallow embedding of:
  - src/lib/RingBuffer.js  (fixed-capacity circular buffer)
  - src/lib/Semaphore.js   (fair counting semaphore, src/unnamed/part_000)
  - src/lib/Pool.js        (resource pool composing both)

  JS machine state is modelled functionally: each method becomes a function
  from the old state to the new state (plus its result).  Exceptions become
  Except values; asynchronous callbacks scheduled with callbackNextTick become
  an append-only history of Completion records.
-/

deriving instance DecidableEq for Except

namespace ConnPool

/-! ## RingBuffer (src/lib/RingBuffer.js) -/

/-- The two RingBuffer error classes: BufferIsFullError and BufferIsEmptyError. -/
inductive RBError
  | full
  | empty

deriving DecidableEq, Repr

/-- State of a RingBuffer instance.  `buffer` models the JS backing array
`new Array(capacity)` as a list of `capacity` slots, empty slots being `none`. -/
structure RingBuffer (α : Type) where
  capacity : Nat
  buffer : List (Option α)
  head : Nat
  tail : Nat
  count : Nat

deriving DecidableEq

/-- The helper function at the bottom of RingBuffer.js:
index + 1 == length ? 0 : index + 1. -/
def increment (index length : Nat) : Nat :=
  if index + 1 = length then 0 else index + 1

/-- The constructor body (after the capacity guard): head = tail = count = 0,
backing storage of `capacity` empty slots. -/
def RingBuffer.new {α : Type} (capacity : Nat) : RingBuffer α :=
  ⟨capacity, List.replicate capacity none, 0, 0, 0⟩

/-- Getter canWrite: count < capacity. -/
def RingBuffer.canWrite {α : Type} (rb : RingBuffer α) : Bool :=
  decide (rb.count < rb.capacity)

/-- Getter isFull: !canWrite. -/
def RingBuffer.isFull {α : Type} (rb : RingBuffer α) : Bool :=
  !rb.canWrite

/-- Getter canRead: count > 0. -/
def RingBuffer.canRead {α : Type} (rb : RingBuffer α) : Bool :=
  decide (0 < rb.count)

/-- Getter isEmpty: !canRead. -/
def RingBuffer.isEmpty {α : Type} (rb : RingBuffer α) : Bool :=
  !rb.canRead

/-- Getter available: capacity - count. -/
def RingBuffer.available {α : Type} (rb : RingBuffer α) : Nat :=
  rb.capacity - rb.count

/-- write(data): throws BufferIsFullError when full (the throw happens before
any mutation, so the state component is returned unchanged); otherwise stores
at tail, advances tail with wraparound over the backing array length, and
increments count. -/
def RingBuffer.write {α : Type} (rb : RingBuffer α) (data : α) :
    Except RBError Unit × RingBuffer α :=
  if rb.isFull then
    (.error .full, rb)
  else
    (.ok (), { rb with
      buffer := rb.buffer.set rb.tail (some data),
      tail := increment rb.tail rb.buffer.length,
      count := rb.count + 1 })

/-- read(): throws BufferIsEmptyError when empty (before any mutation);
otherwise returns the slot at head, advances head with wraparound, and
decrements count. -/
def RingBuffer.read {α : Type} (rb : RingBuffer α) :
    Except RBError (Option α) × RingBuffer α :=
  if rb.isEmpty then
    (.error .empty, rb)
  else
    (rb.buffer.getD rb.head none |> .ok, { rb with
      head := increment rb.head rb.buffer.length,
      count := rb.count - 1 })

/-- Well-formedness of a RingBuffer state: the backing array has length
`capacity`, the capacity is positive, head is in range, count fits, and tail
sits `count` slots after head (mod capacity).  Holds for every state the
constructor and the two mutators can produce. -/
def RingBuffer.wf {α : Type} (rb : RingBuffer α) : Prop :=
  rb.buffer.length = rb.capacity ∧ 0 < rb.capacity ∧ rb.head < rb.capacity ∧
    rb.count ≤ rb.capacity ∧ rb.tail = (rb.head + rb.count) % rb.capacity

instance {α : Type} (rb : RingBuffer α) : Decidable rb.wf := by
  unfold RingBuffer.wf; infer_instance

/-- The i-th live slot, counting from head with wraparound. -/
def RingBuffer.slot {α : Type} (rb : RingBuffer α) (i : Nat) : Option α :=
  rb.buffer.getD ((rb.head + i) % rb.capacity) none

/-- The live contents of the buffer in FIFO (read) order. -/
def RingBuffer.itemsOpt {α : Type} (rb : RingBuffer α) : List (Option α) :=
  (List.range rb.count).map rb.slot

/-- Sequential writes; the first failure propagates (a JS throw aborts the
whole sequence). -/
def writeList {α : Type} : RingBuffer α → List α → Except RBError (RingBuffer α)
  | rb, [] => .ok rb
  | rb, x :: xs =>
    match rb.write x with
    | (.ok _, rb') => writeList rb' xs
    | (.error e, _) => .error e

/-- n sequential reads, collecting the values read in order. -/
def readN {α : Type} : RingBuffer α → Nat → Except RBError (List (Option α) × RingBuffer α)
  | rb, 0 => .ok ([], rb)
  | rb, n + 1 =>
    match rb.read with
    | (.ok v, rb') =>
      match readN rb' n with
      | .ok (vs, rb'') => .ok (v :: vs, rb'')
      | .error e => .error e
    | (.error e, _) => .error e

/-! ## Semaphore (src/unnamed/part_000, i.e. src/lib/Semaphore.js)

The semaphore is stateful and asynchronous.  We model one instance as a
`World`: the instance fields (`_total`, `_acquired`, `_waitingList`) plus
* `timers`   — the waiter ids whose setTimeout timer is pending (registered
               and neither fired nor cleared);
* `history`  — the append-only list of completions scheduled through
               callbackNextTick, in scheduling order;
* `nextId`   — a fresh-id counter modelling JS object identity of the
               `caller` records (ids are allocated in `acquire` call order,
               so id order is submission order);
* `queuedIds`— ghost trace of every id ever pushed onto `_waitingList`.
-/

/-- A JS number that is either a plain (non-negative) number or Infinity;
used for timeouts after the argument normalization at the top of acquire. -/
inductive NumInf
  | fin (n : Nat)
  | inf

deriving DecidableEq, Repr

/-- One record on `_waitingList`: `{ callback, context }`, plus the `timer`
field that acquire may later assign (`true` = a setTimeout handle was stored). -/
structure Caller (γ : Type) where
  wid : Nat
  context : γ
  timer : Bool

deriving DecidableEq

/-- A completion scheduled with callbackNextTick: either a grant
`callback(null, context)` or a not-available failure
`callback(new ResourceNotAvailableError(context))`. -/
inductive Completion (γ : Type)
  | granted (wid : Nat) (context : γ)
  | notAvailable (wid : Nat) (context : γ)

deriving DecidableEq

/-- The waiter id a completion belongs to. -/
def Completion.wid {γ : Type} : Completion γ → Nat
  | granted w _ => w
  | notAvailable w _ => w

structure World (γ : Type) where
  total : Nat
  acquired : Int
  waitingList : List (Caller γ)
  timers : List Nat
  history : List (Completion γ)
  nextId : Nat
  queuedIds : List Nat

deriving DecidableEq

/-- Getter `available = total - acquired`. -/
def World.available {γ : Type} (w : World γ) : Int :=
  (w.total : Int) - w.acquired

/-- Getter `waiting = _waitingList.length`. -/
def World.waiting {γ : Type} (w : World γ) : Nat :=
  w.waitingList.length

/-- The constructor body after the `total < 1` guard:
`_acquired = 0`, `_waitingList = []`. -/
def initWorld {γ : Type} (total : Nat) : World γ :=
  ⟨total, 0, [], [], [], 0, []⟩

/-- `caller.timer = setTimeout(...)`: mark the waiter record with this id as
owning a timer handle.  Ids are unique, so this updates one record. -/
def startTimer {γ : Type} (q : List (Caller γ)) (wid : Nat) : List (Caller γ) :=
  q.map (fun c => if c.wid = wid then { c with timer := true } else c)

/-- `acquire(timeout, context, callback)` after argument normalization
(timeout already a number or Infinity, context already extracted).

Path 1 (`!this.available && !timeout`): not available and caller not willing
to wait — schedule the not-available failure and return without touching any
instance state.

Path 2: push `caller` on `_waitingList` (ghost-recorded in `queuedIds`).
If `available` is truthy (non-zero): `_acquired++`, shift the queue front `c`
(the front is the pushed caller itself iff the queue was empty), clear `c`'s
timer if it has one, schedule the grant for `c`; `needsTimer = (c != caller)`.
Otherwise `needsTimer = true`.  Finally, if `needsTimer` and the timeout is
not Infinity, store a setTimeout handle on the caller record. -/

def acquireStep {γ : Type} (w : World γ) (t : NumInf) (ctx : γ) : World γ :=
  if w.available = 0 ∧ t = NumInf.fin 0 then
    { w with history := w.history ++ [Completion.notAvailable w.nextId ctx],
             nextId := w.nextId + 1 }
  else
    let wid := w.nextId
    if w.available ≠ 0 then
      match w.waitingList with
      | [] =>
        -- the front shifted off `_waitingList.push(caller)` is `caller` itself:
        -- `needsTimer = (c != caller)` is false and `c.timer` is unset
        { w with acquired := w.acquired + 1,
                 history := w.history ++ [Completion.granted wid ctx],
                 nextId := wid + 1,
                 queuedIds := w.queuedIds ++ [wid] }
      | c :: restq =>
        -- the shifted front is `c`; `needsTimer = (c != caller)` is id
        -- inequality; the setTimeout registration is folded per field
        { w with
            acquired := w.acquired + 1,
            waitingList :=
              if c.wid ≠ wid ∧ t ≠ NumInf.inf then
                startTimer (restq ++ [⟨wid, ctx, false⟩]) wid
              else restq ++ [⟨wid, ctx, false⟩],
            timers :=
              (if c.timer then w.timers.erase c.wid else w.timers) ++
                (if c.wid ≠ wid ∧ t ≠ NumInf.inf then [wid] else []),
            history := w.history ++ [Completion.granted c.wid c.context],
            nextId := wid + 1,
            queuedIds := w.queuedIds ++ [wid] }
    else
      -- not available: the caller stays queued; `needsTimer` is true
      { w with
          waitingList :=
            if t ≠ NumInf.inf then
              startTimer (w.waitingList ++ [⟨wid, ctx, false⟩]) wid
            else w.waitingList ++ [⟨wid, ctx, false⟩],
          timers := w.timers ++ (if t ≠ NumInf.inf then [wid] else []),
          nextId := wid + 1,
          queuedIds := w.queuedIds ++ [wid] }

/-- The `while (this.waiting && this.available)` loop of `release()`:
repeatedly `_acquired++`, shift the front waiter, and schedule its grant.
Returns the final acquired count, the remaining queue, and the scheduled
grants in order.  Timers of granted waiters are NOT cleared here (the source
has no clearTimeout on this path). -/
def drainLoop {γ : Type} (total : Nat) : Int → List (Caller γ) →
    Int × List (Caller γ) × List (Completion γ)
  | acq, [] => (acq, [], [])
  | acq, c :: rest =>
    if (total : Int) - acq ≠ 0 then
      let r := drainLoop total (acq + 1) rest
      (r.1, r.2.1, Completion.granted c.wid c.context :: r.2.2)
    else (acq, c :: rest, [])

/-- `release()`: `this._acquired--` unconditionally, then drain the queue. -/
def releaseStep {γ : Type} (w : World γ) : World γ :=
  let r := drainLoop w.total (w.acquired - 1) w.waitingList
  { w with acquired := r.1, waitingList := r.2.1, history := w.history ++ r.2.2 }

/-- A pending setTimeout callback fires: the timer is spent; the body looks
the caller up in `_waitingList` (object identity = id); when found it is
spliced out and the not-available failure is scheduled, otherwise nothing
happens. -/
def fireStep {γ : Type} (w : World γ) (wid : Nat) : World γ :=
  if wid ∈ w.timers then
    match w.waitingList.find? (fun c => c.wid = wid) with
    | some c =>
      { w with timers := w.timers.erase wid,
               waitingList := w.waitingList.eraseP (fun c' => c'.wid = wid),
               history := w.history ++ [Completion.notAvailable c.wid c.context] }
    | none => { w with timers := w.timers.erase wid }
  else w

/-- The observable operations on one semaphore instance: an acquire call, a
release call, or the expiry of a pending timer. -/
inductive Op (γ : Type)
  | acquire (t : NumInf) (ctx : γ)
  | release
  | fire (wid : Nat)

deriving DecidableEq

def step {γ : Type} (w : World γ) : Op γ → World γ
  | .acquire t ctx => acquireStep w t ctx
  | .release => releaseStep w
  | .fire wid => fireStep w wid

def exec {γ : Type} (w : World γ) (ops : List (Op γ)) : World γ :=
  ops.foldl step w

/-- A release is balanced only while at least one permit is actually held. -/
def opOk {γ : Type} (w : World γ) : Op γ → Bool
  | .release => decide (0 < w.acquired)
  | _ => true

/-- A client trace is balanced when every release happens while at least one
permit is actually held. -/
def balancedB {γ : Type} : World γ → List (Op γ) → Bool
  | _, [] => true
  | w, op :: ops => opOk w op && balancedB (step w op) ops

/-! ### FIFO fairness (C3)

Waiter ids are allocated in `acquire`-call order, so `a < b` on ids says a's
acquire was submitted strictly before b's; `queuedIds` records exactly the
callers that were pushed onto `_waitingList`.  The invariant `Inv` below holds
in every reachable world and `FifoOk` states the fairness property over the
completion history. -/

/-- The waiter ids of a queue, in queue order. -/
def wids {γ : Type} (q : List (Caller γ)) : List Nat :=
  q.map (fun c => c.wid)

/-- Structural invariant of every reachable semaphore world:
the queue is in strictly increasing id (= arrival) order, all ids are below
the allocation counter, queued callers were recorded as queued, every
ever-queued caller that has left the queue has a completion in the history,
and completion ids are below the allocation counter. -/
structure Inv {γ : Type} (w : World γ) : Prop where
  sorted : List.Pairwise (· < ·) (wids w.waitingList)
  q_lt : ∀ a ∈ wids w.waitingList, a < w.nextId
  qids_lt : ∀ a ∈ w.queuedIds, a < w.nextId
  q_sub : ∀ a ∈ wids w.waitingList, a ∈ w.queuedIds
  compl : ∀ a ∈ w.queuedIds, a ∉ wids w.waitingList → ∃ x ∈ w.history, x.wid = a
  hist_lt : ∀ x ∈ w.history, x.wid < w.nextId

/-- FIFO fairness over the completion history: whenever a grant for waiter b
appears at history position j, every earlier-submitted waiter a that was ever
queued and never received a not-available completion already has a grant at
some position i ≤ j. -/
def FifoOk {γ : Type} (w : World γ) : Prop :=
  ∀ j b ctxb, w.history.get? j = some (Completion.granted b ctxb) →
    ∀ a, a ∈ w.queuedIds → a < b →
      (∀ ctx, Completion.notAvailable a ctx ∉ w.history) →
      ∃ i, i ≤ j ∧ ∃ ctxa, w.history.get? i = some (Completion.granted a ctxa)

/-! ## Pool (src/lib/Pool.js)

The Pool composes a RingBuffer and a Semaphore world (context type Unit:
`_acquire` passes no context to `_semaphore.acquire`).  The constructor
normalizes options exactly as the JS does: `options.capacity ||
Pool.defaultCapacity` and `options.timeout || Pool.defaultTimeout`, where a
JS `||` falls through to the default on a falsy left operand — in particular
on the number 0. -/

inductive PoolCtorError
  | missingResourceProvider

deriving DecidableEq, Repr

/-- The options object handed to the Pool constructor.  `resourceProvider`
records only the truthiness of the provider capability, which is all the
constructor checks. -/
structure PoolOptions where
  capacity : Option NumInf
  timeout : Option NumInf
  resourceProvider : Bool

deriving DecidableEq

structure PoolM (ρ : Type) where
  capacity : NumInf
  timeout : NumInf
  buffer : Option (RingBuffer ρ)
  semaphore : Option (World Unit)

deriving DecidableEq

/-- JS `x || d` on an optional number: undefined, null and 0 are falsy. -/
def jsOrNum (v : Option NumInf) (d : NumInf) : NumInf :=
  match v with
  | none => d
  | some (NumInf.fin 0) => d
  | some x => x

/-- The mode test `capacity > 0 && capacity < Infinity` used by
`_initBuffer`, `getResource` and `releaseResource`. -/
def NumInf.isBoundedCap : NumInf → Bool
  | NumInf.fin n => decide (0 < n)
  | NumInf.inf => false

/-- Pool constructor: requires a resourceProvider; applies the falsy-or
defaults (capacity 5, timeout 30*1000); `_initBuffer` creates the internal
RingBuffer and Semaphore only in bounded mode. -/
def mkPool (ρ : Type) (opts : PoolOptions) : Except PoolCtorError (PoolM ρ) :=
  if !opts.resourceProvider then
    .error .missingResourceProvider
  else
    let cap := jsOrNum opts.capacity (NumInf.fin 5)
    let tmo := jsOrNum opts.timeout (NumInf.fin (30 * 1000))
    match cap with
    | NumInf.fin n =>
      if 0 < n then
        .ok ⟨NumInf.fin n, tmo, some (RingBuffer.new n), some (initWorld n)⟩
      else
        .ok ⟨NumInf.fin n, tmo, none, none⟩
    | NumInf.inf => .ok ⟨NumInf.inf, tmo, none, none⟩

/-- getResource: in bounded mode, `_acquire(this.timeout, cb)` runs
`this._semaphore.acquire(timeout, ...)`; otherwise the resource provider is
invoked directly (flag `true` in the second component). -/
def PoolM.getResource {ρ : Type} (p : PoolM ρ) : PoolM ρ × Bool :=
  if p.capacity.isBoundedCap then
    match p.semaphore with
    | some w => ({ p with semaphore := some (acquireStep w p.timeout ()) }, false)
    | none => (p, false)
  else
    (p, true)

/-- releaseResource: in bounded mode `_release` writes the resource into the
buffer FIRST and only then releases the semaphore (a write throw propagates
and the release is never executed); in unbounded mode it is a no-op. -/
def PoolM.releaseResource {ρ : Type} (p : PoolM ρ) (r : ρ) :
    Except RBError (PoolM ρ) :=
  if p.capacity.isBoundedCap then
    match p.buffer, p.semaphore with
    | some rb, some w =>
      match rb.write r with
      | (.ok _, rb') =>
        .ok { p with buffer := some rb', semaphore := some (releaseStep w) }
      | (.error e, _) => .error e
    | _, _ => .ok p
  else
    .ok p

/-- What the granted continuation of `_acquire` does: either invoke the
pool callback (with a read resource, the provider's resource, or the
provider's error), or raise a RingBuffer error out of the callback. -/
inductive ContRes (ε ρ : Type)
  | callback (r : Except ε (Option ρ))
  | raised (e : RBError)

deriving DecidableEq

/-- The callback body run when the semaphore grants a getResource caller:
if the buffer canRead, read it and call back with the item; otherwise
(lazy-provision path) call the resource provider and forward its
result-or-error verbatim.  `pres` is the provider's asynchronous outcome. -/
def acquireCont {ρ ε : Type} (rb : RingBuffer ρ) (pres : Except ε ρ) :
    ContRes ε ρ × RingBuffer ρ :=
  if rb.canRead then
    match rb.read with
    | (.ok v, rb') => (.callback (.ok v), rb')
    | (.error e, rb') => (.raised e, rb')
  else
    match pres with
    | .ok r => (.callback (.ok (some r)), rb)
    | .error e => (.callback (.error e), rb)

/-- Pool-level view of the granted continuation (none when no buffer exists,
which cannot happen for a constructor-built bounded pool). -/
def PoolM.runGrantCont {ρ ε : Type} (p : PoolM ρ) (pres : Except ε ρ) :
    Option (ContRes ε ρ × PoolM ρ) :=
  p.buffer.map (fun rb =>
    ((acquireCont rb pres).1, { p with buffer := some (acquireCont rb pres).2 }))

/-! ## Construction boundary over JS numbers (C10)

The constructor guards compare raw JS numbers, so the model needs the JS
comparison semantics for the non-finite values: `NaN < 1` is false and
`NaN == Infinity` is false, which means NaN slips past the RingBuffer guard
and only fails when `new Array(NaN)` throws a RangeError (array lengths must
be integers in [0, 2^32)). -/

inductive JsNum
  | num (v : Int)
  | inf
  | negInf
  | nan

deriving DecidableEq, Repr

/-- JS `x < 1`: false for NaN and Infinity, true for -Infinity. -/
def JsNum.ltOne : JsNum → Bool
  | num v => decide (v < 1)
  | inf => false
  | negInf => true
  | nan => false

/-- JS `x == Infinity`: false for NaN (NaN compares unequal to everything). -/
def JsNum.eqInf : JsNum → Bool
  | inf => true
  | _ => false

inductive JsCtorError
  | invalidCapacity
  | invalidArrayLength
  | invalidTotal

deriving DecidableEq, Repr

/-- The RingBuffer constructor over a raw JS number: the explicit guard
`capacity < 1 || capacity == Infinity` throws first; past the guard,
`new Array(capacity)` throws a RangeError unless the value is an integer in
[0, 2^32) — which rejects NaN.  On success the fields are initialized as in
`RingBuffer.new`.  Failure returns no object (a JS `new` that throws
constructs nothing). -/
def mkRingBufferJs (α : Type) (c : JsNum) : Except JsCtorError (RingBuffer α) :=
  if c.ltOne || c.eqInf then
    .error .invalidCapacity
  else
    match c with
    | JsNum.num v =>
      if 0 ≤ v ∧ v < 4294967296 then .ok (RingBuffer.new v.toNat)
      else .error .invalidArrayLength
    | _ => .error .invalidArrayLength

/-- Field state of a freshly constructed Semaphore. -/
structure SemJs where
  total : JsNum
  acquired : Int
  waitingList : List Unit

deriving DecidableEq, Repr

/-- The Semaphore constructor over a raw JS number:
`if (total < 1) throw`; otherwise `_acquired = 0`, `_waitingList = []`. -/
def mkSemaphoreJs (t : JsNum) : Except JsCtorError SemJs :=
  if t.ltOne then .error .invalidTotal
  else .ok ⟨t, 0, []⟩

/-! ## Theorems -/

theorem increment_eq_mod (i n : Nat) (h : i < n) : increment i n = (i + 1) % n := by
  unfold increment
  by_cases h1 : i + 1 = n
  · simp [h1, Nat.mod_self]
  · rw [if_neg h1, Nat.mod_eq_of_lt (by omega)]

theorem get?_set_self {β : Type} (l : List β) (i : Nat) (x : β) (h : i < l.length) :
    (l.set i x).get? i = some x := by
  induction l generalizing i with
  | nil => simp at h
  | cons a t ih =>
    cases i with
    | zero => simp [List.set]
    | succ j => simp only [List.set, List.get?]; exact ih j (by simpa using h)

theorem get?_set_other {β : Type} (l : List β) (i j : Nat) (x : β) (h : i ≠ j) :
    (l.set i x).get? j = l.get? j := by
  induction l generalizing i j with
  | nil => simp [List.set]
  | cons a t ih =>
    cases i with
    | zero =>
      cases j with
      | zero => exact absurd rfl h
      | succ k => simp [List.set]
    | succ i' =>
      cases j with
      | zero => simp [List.set]
      | succ k => simp only [List.set, List.get?]; exact ih i' k (by omega)

theorem getD_set_self {α : Type} (l : List (Option α)) (i : Nat) (x : Option α)
    (h : i < l.length) : (l.set i x).getD i none = x := by
  rw [List.getD_eq_get?, get?_set_self l i x h]; rfl

theorem getD_set_other {α : Type} (l : List (Option α)) (i j : Nat) (x : Option α)
    (h : i ≠ j) : (l.set i x).getD j none = l.getD j none := by
  rw [List.getD_eq_get?, get?_set_other l i j x h, List.getD_eq_get?]

/-- Explicit form of a successful write. -/
theorem write_eq {α : Type} (rb : RingBuffer α) (x : α) (h : rb.count < rb.capacity) :
    rb.write x = (.ok (), ⟨rb.capacity, rb.buffer.set rb.tail (some x), rb.head,
      increment rb.tail rb.buffer.length, rb.count + 1⟩) := by
  unfold RingBuffer.write RingBuffer.isFull RingBuffer.canWrite
  simp [h]

/-- Explicit form of a successful read. -/
theorem read_eq {α : Type} (rb : RingBuffer α) (h : 0 < rb.count) :
    rb.read = (.ok (rb.buffer.getD rb.head none), ⟨rb.capacity, rb.buffer,
      increment rb.head rb.buffer.length, rb.tail, rb.count - 1⟩) := by
  unfold RingBuffer.read RingBuffer.isEmpty RingBuffer.canRead
  simp [h]

/-- Distinct offsets below the wrap distance land on distinct slots. -/
theorem mod_slot_ne (cap h i k : Nat) (hcap : 0 < cap) (hik : i < k) (hlt : k - i < cap) :
    (h + i) % cap ≠ (h + k) % cap := by
  intro heq
  have hle : h + i ≤ h + k := by omega
  have hdvd : cap ∣ (h + k) - (h + i) := (Nat.modEq_iff_dvd' hle).mp heq
  have : (h + k) - (h + i) = k - i := by omega
  rw [this] at hdvd
  have := Nat.le_of_dvd (by omega) hdvd
  omega

theorem wf_new {α : Type} (cap : Nat) (h : 0 < cap) : (RingBuffer.new (α := α) cap).wf := by
  refine ⟨?_, h, h, Nat.zero_le _, ?_⟩ <;> simp [RingBuffer.new]

theorem itemsOpt_new {α : Type} (cap : Nat) : (RingBuffer.new (α := α) cap).itemsOpt = [] := by
  simp [RingBuffer.itemsOpt, RingBuffer.new]

/-- A non-full write succeeds and appends the written item to the FIFO contents. -/
theorem write_spec {α : Type} (rb : RingBuffer α) (x : α) (hwf : rb.wf)
    (hroom : rb.count < rb.capacity) :
    (rb.write x).1 = .ok () ∧ (rb.write x).2.wf ∧
      (rb.write x).2.count = rb.count + 1 ∧
      (rb.write x).2.capacity = rb.capacity ∧
      (rb.write x).2.itemsOpt = rb.itemsOpt ++ [some x] := by
  obtain ⟨hlen, hcap, hhead, hcount, htail⟩ := hwf
  have htlt : rb.tail < rb.capacity := htail ▸ Nat.mod_lt _ hcap
  rw [write_eq rb x hroom]
  refine ⟨rfl, ⟨?_, hcap, hhead, ?_, ?_⟩, rfl, rfl, ?_⟩
  · show (rb.buffer.set rb.tail (some x)).length = rb.capacity
    rw [List.length_set]
    exact hlen
  · show rb.count + 1 ≤ rb.capacity
    omega
  · show increment rb.tail rb.buffer.length = (rb.head + (rb.count + 1)) % rb.capacity
    rw [hlen, increment_eq_mod _ _ htlt, htail, Nat.mod_add_mod]
    congr 1
  · show (List.range (rb.count + 1)).map
        (RingBuffer.mk rb.capacity (rb.buffer.set rb.tail (some x)) rb.head
          (increment rb.tail rb.buffer.length) (rb.count + 1)).slot =
        rb.itemsOpt ++ [some x]
    rw [List.range_succ, List.map_append]
    congr 1
    · apply List.map_congr_left
      intro i hi
      simp only [List.mem_range] at hi
      show (rb.buffer.set rb.tail (some x)).getD ((rb.head + i) % rb.capacity) none =
        rb.buffer.getD ((rb.head + i) % rb.capacity) none
      apply getD_set_other
      rw [htail]
      exact fun hc => (mod_slot_ne rb.capacity rb.head i rb.count hcap hi (by omega)) hc.symm
    · show [(rb.buffer.set rb.tail (some x)).getD ((rb.head + rb.count) % rb.capacity) none]
        = [some x]
      rw [← htail, getD_set_self rb.buffer rb.tail (some x) (by omega)]

/-- The FIFO contents of a non-empty buffer decompose as head slot plus rest. -/
theorem itemsOpt_cons {α : Type} (rb : RingBuffer α) (hwf : rb.wf) (hne : 0 < rb.count) :
    rb.itemsOpt = rb.buffer.getD rb.head none ::
      (List.range (rb.count - 1)).map
        (fun i => rb.buffer.getD ((rb.head + (i + 1)) % rb.capacity) none) := by
  obtain ⟨hlen, hcap, hhead, hcount, htail⟩ := hwf
  unfold RingBuffer.itemsOpt
  obtain ⟨m, hm⟩ : ∃ m, rb.count = m + 1 := ⟨rb.count - 1, by omega⟩
  rw [hm, List.range_succ_eq_map, List.map_cons, List.map_map]
  refine congrArg₂ List.cons ?_ ?_
  · show rb.buffer.getD ((rb.head + 0) % rb.capacity) none = rb.buffer.getD rb.head none
    rw [Nat.add_zero, Nat.mod_eq_of_lt hhead]
  · simp only [hm, Nat.add_sub_cancel]
    apply List.map_congr_left
    intro i _
    simp [RingBuffer.slot, Function.comp, Nat.succ_eq_add_one]

/-- A non-empty read succeeds, returns the FIFO head, and removes it. -/
theorem read_spec {α : Type} (rb : RingBuffer α) (hwf : rb.wf) (hne : 0 < rb.count) :
    (rb.read).1 = .ok (rb.itemsOpt.headD none) ∧ (rb.read).2.wf ∧
      (rb.read).2.count = rb.count - 1 ∧
      (rb.read).2.capacity = rb.capacity ∧
      (rb.read).2.itemsOpt = rb.itemsOpt.tail := by
  have hitems := itemsOpt_cons rb hwf hne
  obtain ⟨hlen, hcap, hhead, hcount, htail⟩ := hwf
  rw [read_eq rb hne]
  refine ⟨by rw [hitems]; rfl, ⟨hlen, hcap, ?_, ?_, ?_⟩, rfl, rfl, ?_⟩
  · show increment rb.head rb.buffer.length < rb.capacity
    rw [hlen, increment_eq_mod _ _ hhead]
    exact Nat.mod_lt _ hcap
  · show rb.count - 1 ≤ rb.capacity
    omega
  · show rb.tail = (increment rb.head rb.buffer.length + (rb.count - 1)) % rb.capacity
    rw [hlen, increment_eq_mod _ _ hhead, htail, Nat.mod_add_mod]
    congr 1
    omega
  · show (List.range (rb.count - 1)).map
        (RingBuffer.mk rb.capacity rb.buffer (increment rb.head rb.buffer.length)
          rb.tail (rb.count - 1)).slot = rb.itemsOpt.tail
    rw [hitems, List.tail_cons]
    apply List.map_congr_left
    intro i _
    show rb.buffer.getD ((increment rb.head rb.buffer.length + i) % rb.capacity) none = _
    rw [hlen, increment_eq_mod _ _ hhead, Nat.mod_add_mod]
    congr 2
    omega

/-- Writing a whole list into a buffer with enough room. -/
theorem writeList_spec {α : Type} (xs : List α) (rb : RingBuffer α) (hwf : rb.wf)
    (hroom : rb.count + xs.length ≤ rb.capacity) :
    ∃ rb', writeList rb xs = .ok rb' ∧ rb'.wf ∧
      rb'.count = rb.count + xs.length ∧ rb'.capacity = rb.capacity ∧
      rb'.itemsOpt = rb.itemsOpt ++ xs.map some := by
  induction xs generalizing rb with
  | nil => exact ⟨rb, rfl, hwf, by simp, rfl, by simp⟩
  | cons x xs ih =>
    have hlt : rb.count < rb.capacity := by simp at hroom; omega
    obtain ⟨hok, hwf1, hcnt1, hcap1, hitems1⟩ := write_spec rb x hwf hlt
    obtain ⟨rb', hrun, hwf', hcnt', hcap', hitems'⟩ :=
      ih (rb.write x).2 hwf1 (by rw [hcnt1, hcap1]; simp at hroom ⊢; omega)
    refine ⟨rb', ?_, hwf', ?_, ?_, ?_⟩
    · show writeList rb (x :: xs) = .ok rb'
      unfold writeList
      rw [write_eq rb x hlt] at hrun ⊢
      exact hrun
    · rw [hcnt', hcnt1]; simp; omega
    · rw [hcap', hcap1]
    · rw [hitems', hitems1]; simp

/-- Reading n items out of a buffer holding at least n. -/
theorem readN_spec {α : Type} (n : Nat) (rb : RingBuffer α) (hwf : rb.wf)
    (hn : n ≤ rb.count) :
    ∃ rb'', readN rb n = .ok (rb.itemsOpt.take n, rb'') ∧ rb''.wf ∧
      rb''.count = rb.count - n ∧ rb''.itemsOpt = rb.itemsOpt.drop n := by
  induction n generalizing rb with
  | zero => exact ⟨rb, by simp [readN], hwf, by simp, by simp⟩
  | succ m ih =>
    have hne : 0 < rb.count := by omega
    have hcons := itemsOpt_cons rb hwf hne
    obtain ⟨hok, hwf1, hcnt1, _, hitems1⟩ := read_spec rb hwf hne
    obtain ⟨rb'', hrun, hwf'', hcnt'', hitems''⟩ := ih (rb.read).2 hwf1 (by omega)
    have hhead_eq : rb.buffer.getD rb.head none = rb.itemsOpt.headD none := by
      rw [hcons]
      rfl
    have hread : rb.read = (.ok (rb.itemsOpt.headD none), (rb.read).2) := by
      rw [read_eq rb hne]
      rw [hhead_eq]
    refine ⟨rb'', ?_, hwf'', by omega, ?_⟩
    · show readN rb (m + 1) = .ok (rb.itemsOpt.take (m + 1), rb'')
      unfold readN
      rw [hread]
      simp only []
      rw [hrun]
      simp only []
      rw [hitems1, hcons]
      simp [List.take]
    · rw [hitems'', hitems1, hcons]
      simp

/-- C8.  RingBuffer boundary and round-trip:
(1) write on a full buffer fails with the full-buffer error leaving head, tail,
count and stored items unchanged (the state component returned is the input
state itself);
(2) read on an empty buffer fails with the empty-buffer error leaving the state
unchanged;
(3) from any well-formed drained state (count = 0), writing k ≤ capacity items
and then reading k times yields exactly those items in original FIFO order,
with count back at its starting value 0. -/
theorem ringbuffer_boundary_roundtrip {α : Type} :
    (∀ (rb : RingBuffer α) (x : α), rb.isFull = true → rb.write x = (.error .full, rb)) ∧
    (∀ rb : RingBuffer α, rb.isEmpty = true → rb.read = (.error .empty, rb)) ∧
    (∀ (rb : RingBuffer α) (xs : List α), rb.wf → rb.count = 0 → xs.length ≤ rb.capacity →
      ∃ rb' rb'', writeList rb xs = .ok rb' ∧
        readN rb' xs.length = .ok (xs.map some, rb'') ∧ rb''.count = 0) := by
  refine ⟨?_, ?_, ?_⟩
  · intro rb x h
    unfold RingBuffer.write
    rw [h]
    simp
  · intro rb h
    unfold RingBuffer.read
    rw [h]
    simp
  · intro rb xs hwf hzero hlen
    obtain ⟨rb', hw, hwf', hcnt', hcap', hitems'⟩ :=
      writeList_spec xs rb hwf (by omega)
    have hempty : rb.itemsOpt = [] := by
      simp [RingBuffer.itemsOpt, hzero]
    obtain ⟨rb'', hr, _, hcnt'', _⟩ :=
      readN_spec xs.length rb' hwf' (by omega)
    refine ⟨rb', rb'', hw, ?_, by omega⟩
    rw [hr, hitems', hempty]
    simp

/-- Witness for C8: concrete instances discharging every hypothesis.
A capacity-1 buffer holding one item is full and rejects a write unchanged;
a fresh capacity-1 buffer is empty and rejects a read unchanged; writing
[10, 20] into a fresh capacity-3 buffer and reading twice round-trips. -/
theorem ringbuffer_boundary_roundtrip_witness :
    ((RingBuffer.new (α := Nat) 1).write 7).2.isFull = true ∧
    (((RingBuffer.new (α := Nat) 1).write 7).2.write 9 =
      (.error .full, ((RingBuffer.new (α := Nat) 1).write 7).2)) ∧
    (RingBuffer.new (α := Nat) 1).isEmpty = true ∧
    ((RingBuffer.new (α := Nat) 1).read = (.error .empty, RingBuffer.new 1)) ∧
    (∃ rb' rb'', writeList (RingBuffer.new (α := Nat) 3) [10, 20] = .ok rb' ∧
      readN rb' 2 = .ok ([some 10, some 20], rb'') ∧ rb''.count = 0) := by
  refine ⟨by decide, ?_, by decide, ?_, ?_⟩
  · exact (ringbuffer_boundary_roundtrip (α := Nat)).1 _ 9 (by decide)
  · exact (ringbuffer_boundary_roundtrip (α := Nat)).2.1 _ (by decide)
  · exact (ringbuffer_boundary_roundtrip (α := Nat)).2.2 (RingBuffer.new 3) [10, 20]
      (by decide) (by decide) (by decide)

/-- An acquire call preserves `total` and keeps `0 ≤ acquired ≤ total`. -/
theorem acquireStep_inv {γ : Type} (w : World γ) (t : NumInf) (ctx : γ) (T : Nat)
    (h1 : w.total = T) (h2 : 0 ≤ w.acquired) (h3 : w.acquired ≤ T) :
    (acquireStep w t ctx).total = T ∧ 0 ≤ (acquireStep w t ctx).acquired ∧
      (acquireStep w t ctx).acquired ≤ T := by
  have hstep : w.available ≠ 0 → 0 ≤ w.acquired + 1 ∧ w.acquired + 1 ≤ (T : Int) := by
    intro hne
    have hne' : (w.total : Int) - w.acquired ≠ 0 := hne
    rw [h1] at hne'
    omega
  unfold acquireStep
  repeat' split
  all_goals first
    | exact ⟨h1, h2, h3⟩
    | exact ⟨h1, (hstep (by assumption)).1, (hstep (by assumption)).2⟩

/-- A timer expiry never changes the counters. -/
theorem fireStep_frame {γ : Type} (w : World γ) (wid : Nat) :
    (fireStep w wid).acquired = w.acquired ∧ (fireStep w wid).total = w.total := by
  unfold fireStep
  split
  · split <;> exact ⟨rfl, rfl⟩
  · exact ⟨rfl, rfl⟩

/-- The drain loop keeps the acquired count within bounds. -/
theorem drainLoop_bounds {γ : Type} (total : Nat) (q : List (Caller γ)) :
    ∀ a : Int, 0 ≤ a → a ≤ total →
      0 ≤ (drainLoop total a q).1 ∧ (drainLoop (γ := γ) total a q).1 ≤ total := by
  induction q with
  | nil => intro a hl hr; exact ⟨hl, hr⟩
  | cons c rest ih =>
    intro a hl hr
    simp only [drainLoop]
    split
    · rename_i hne
      exact ih (a + 1) (by omega) (by omega)
    · exact ⟨hl, hr⟩

/-- Invariant propagation for balanced traces. -/
theorem exec_counts_inv {γ : Type} (T : Nat) (ops : List (Op γ)) : ∀ w : World γ,
    w.total = T → 0 ≤ w.acquired → w.acquired ≤ T → balancedB w ops = true →
    (exec w ops).total = T ∧ 0 ≤ (exec w ops).acquired ∧ (exec w ops).acquired ≤ T := by
  induction ops with
  | nil => intro w h1 h2 h3 _; exact ⟨h1, h2, h3⟩
  | cons op ops ih =>
    intro w h1 h2 h3 hbal
    simp only [balancedB, Bool.and_eq_true] at hbal
    obtain ⟨hhead, htail⟩ := hbal
    show (exec (step w op) ops).total = T ∧ _
    cases op with
    | acquire t ctx =>
      obtain ⟨ht, ha1, ha2⟩ := acquireStep_inv w t ctx T h1 h2 h3
      exact ih _ ht ha1 ha2 htail
    | release =>
      have hpos : 0 < w.acquired := by simpa [opOk] using hhead
      have hb := drainLoop_bounds w.total w.waitingList (w.acquired - 1)
        (by omega) (by rw [h1]; omega)
      refine ih _ h1 hb.1 ?_ htail
      show (drainLoop w.total (w.acquired - 1) w.waitingList).1 ≤ (T : Int)
      rw [← h1]
      exact hb.2
    | fire wid =>
      obtain ⟨hacq, htot⟩ := fireStep_frame w wid
      exact ih _ (htot.trans h1) (hacq ▸ h2) (hacq ▸ h3) htail

/-- C2 (counterexample).  The claim quantifies over EVERY sequence of acquire
and release operations, but `release()` decrements `_acquired` with no guard:
a single release on a fresh Semaphore(1) drives `acquired` to -1, violating
`0 ≤ acquired`. -/
theorem sem_unbalanced_release_negative :
    (exec (initWorld 1 : World Unit) [Op.release]).acquired = -1 ∧
    ¬ (0 ≤ (exec (initWorld 1 : World Unit) [Op.release]).acquired) := by
  decide

/-- C2 (amended).  For every Semaphore constructed with total T and every
BALANCED sequence of acquire/release/timer-expiry operations (each release
issued while `acquired > 0`), at every observable point `0 ≤ acquired ≤ T`
and the `available` getter equals `T - acquired`.  (The quantification over
all traces covers every prefix, i.e. every observable point.) -/
theorem sem_counts_invariant_balanced {γ : Type} (T : Nat) (ops : List (Op γ))
    (hT : 1 ≤ T) (hbal : balancedB (initWorld T : World γ) ops = true) :
    0 ≤ (exec (initWorld T : World γ) ops).acquired ∧
    (exec (initWorld T : World γ) ops).acquired ≤ T ∧
    (exec (initWorld T : World γ) ops).available =
      (T : Int) - (exec (initWorld T : World γ) ops).acquired := by
  obtain ⟨ht, h1, h2⟩ := exec_counts_inv T ops (initWorld T) rfl (le_refl 0)
    (show (0 : Int) ≤ (T : Int) by exact_mod_cast Nat.zero_le T) hbal
  refine ⟨h1, h2, ?_⟩
  show ((exec (initWorld T : World γ) ops).total : Int) - _ = _
  rw [ht]

/-- Witness for C2's amended theorem: Semaphore(1) with one acquire then one
balanced release. -/
theorem sem_counts_invariant_balanced_witness :
    (1 ≤ 1 ∧ balancedB (initWorld 1 : World Unit)
        [Op.acquire NumInf.inf (), Op.release] = true) ∧
    (0 ≤ (exec (initWorld 1 : World Unit) [Op.acquire NumInf.inf (), Op.release]).acquired ∧
     (exec (initWorld 1 : World Unit) [Op.acquire NumInf.inf (), Op.release]).acquired ≤ 1 ∧
     (exec (initWorld 1 : World Unit) [Op.acquire NumInf.inf (), Op.release]).available =
       (1 : Int) - (exec (initWorld 1 : World Unit) [Op.acquire NumInf.inf (), Op.release]).acquired) :=
  ⟨⟨by decide, by decide⟩,
    sem_counts_invariant_balanced 1 [Op.acquire NumInf.inf (), Op.release]
      (by decide) (by decide)⟩

/-- C7.  An acquire with timeout 0 while no permit is free: the not-available
failure is scheduled carrying the caller's context verbatim, and the
semaphore state is untouched — `acquired`, `_waitingList`, pending timers and
the queued-id trace are all unchanged (only the fresh-id counter, which
models object allocation, advances). -/
theorem sem_acquire_nowait_unavailable {γ : Type} (w : World γ) (ctx : γ)
    (h : w.available = 0) :
    acquireStep w (NumInf.fin 0) ctx =
      { w with history := w.history ++ [Completion.notAvailable w.nextId ctx],
               nextId := w.nextId + 1 } := by
  unfold acquireStep
  rw [if_pos ⟨h, rfl⟩]

/-- Witness for C7: Semaphore(1) after one granted acquire has available = 0;
a zero-timeout acquire only schedules the failure and bumps the id counter. -/
theorem sem_acquire_nowait_unavailable_witness :
    (exec (initWorld 1 : World Unit) [Op.acquire NumInf.inf ()]).available = 0 ∧
    acquireStep (exec (initWorld 1 : World Unit) [Op.acquire NumInf.inf ()])
        (NumInf.fin 0) () =
      ⟨1, 1, [], [], [Completion.granted 0 (), Completion.notAvailable 1 ()], 2, [0]⟩ :=
  ⟨by decide,
    (sem_acquire_nowait_unavailable
      (exec (initWorld 1 : World Unit) [Op.acquire NumInf.inf ()]) () (by decide)).trans
      (by decide)⟩

/-- C5 (failing input, evaluated).  Semaphore(1): the first acquire is granted;
the second acquire (timeout 500) is queued and owns exactly one pending timer;
`release()` grants that waiter through its drain loop — but the drain loop has
no clearTimeout, so after the grant the waiter's timer is STILL pending
(`timers = [1]`), even though the waiter has left the queue and its grant is
in the completion history.  The only clearTimeout on a grant path sits in
`acquire` and can only fire when `available ≠ 0` with a non-empty queue,
which release's drain makes unreachable; the code's own comment says the
stored timer handle exists precisely so it can be cleared on successful
acquire. -/
theorem sem_release_grant_leaves_timer :
    (exec (initWorld 1 : World Unit)
        [Op.acquire NumInf.inf (), Op.acquire (NumInf.fin 500) (), Op.release]).history =
      [Completion.granted 0 (), Completion.granted 1 ()] ∧
    (exec (initWorld 1 : World Unit)
        [Op.acquire NumInf.inf (), Op.acquire (NumInf.fin 500) (), Op.release]).waitingList = [] ∧
    (exec (initWorld 1 : World Unit)
        [Op.acquire NumInf.inf (), Op.acquire (NumInf.fin 500) (), Op.release]).timers = [1] := by
  decide

theorem get?_some_lt_length {β : Type} {l : List β} {n : Nat} {x : β}
    (h : l.get? n = some x) : n < l.length := by
  by_contra hc
  rw [List.get?_eq_none.mpr (by omega)] at h
  exact absurd h (by simp)

/-- Transfer lemma: a step that appends `Δ` to the history and only makes
queued-id entries with fresh ids preserves FIFO fairness, provided every NEW
grant in `Δ` satisfies the fairness obligation. -/
theorem fifo_extend {γ : Type} (w : World γ) (Δ : List (Completion γ)) (Q : List Nat)
    (hInv : Inv w) (hP : FifoOk w)
    (hQ : ∀ a ∈ Q, a ∈ w.queuedIds ∨ w.nextId ≤ a)
    (hgrants : ∀ m b ctxb, Δ.get? m = some (Completion.granted b ctxb) →
      ∀ a ∈ Q, a < b → (∀ ctx, Completion.notAvailable a ctx ∉ w.history ++ Δ) →
      ∃ i, i ≤ w.history.length + m ∧
        ∃ ctxa, (w.history ++ Δ).get? i = some (Completion.granted a ctxa)) :
    ∀ j b ctxb, (w.history ++ Δ).get? j = some (Completion.granted b ctxb) →
      ∀ a, a ∈ Q → a < b →
        (∀ ctx, Completion.notAvailable a ctx ∉ w.history ++ Δ) →
        ∃ i, i ≤ j ∧ ∃ ctxa, (w.history ++ Δ).get? i = some (Completion.granted a ctxa) := by
  intro j b ctxb hj a ha hab hna
  by_cases hjL : j < w.history.length
  · rw [List.get?_append hjL] at hj
    have hb : b < w.nextId := hInv.hist_lt _ (List.get?_mem hj)
    have ha' : a ∈ w.queuedIds := by
      rcases hQ a ha with h | h
      · exact h
      · omega
    have hna' : ∀ ctx, Completion.notAvailable a ctx ∉ w.history :=
      fun ctx hc => hna ctx (List.mem_append_left _ hc)
    obtain ⟨i, hij, ctxa, hi⟩ := hP j b ctxb hj a ha' hab hna'
    have hiL : i < w.history.length := get?_some_lt_length hi
    exact ⟨i, hij, ctxa, by rw [List.get?_append hiL]; exact hi⟩
  · have hjL' : w.history.length ≤ j := by omega
    rw [List.get?_append_right hjL'] at hj
    obtain ⟨i, hi, hgr⟩ := hgrants (j - w.history.length) b ctxb hj a ha hab hna
    exact ⟨i, by omega, hgr⟩

/-- The drain loop pops some prefix of the queue, granting each popped waiter
in order and incrementing the acquired count once per grant. -/
theorem drain_spec {γ : Type} (total : Nat) (q : List (Caller γ)) : ∀ a : Int,
    ∃ k ≤ q.length, drainLoop total a q =
      (a + k, q.drop k, (q.take k).map (fun c => Completion.granted c.wid c.context)) := by
  induction q with
  | nil => intro a; exact ⟨0, by simp, by simp [drainLoop]⟩
  | cons c rest ih =>
    intro a
    by_cases hav : (total : Int) - a ≠ 0
    · obtain ⟨k, hk, heq⟩ := ih (a + 1)
      refine ⟨k + 1, by simp; omega, ?_⟩
      simp only [drainLoop, if_pos hav, heq]
      refine congrArg₂ Prod.mk (by push_cast; ring) ?_
      simp [List.take, List.drop]
    · refine ⟨0, by simp, ?_⟩
      simp only [drainLoop, if_neg hav]
      simp

/-- The wid projection ignores the timer-flag update of `startTimer`. -/
theorem wids_startTimer {γ : Type} (q : List (Caller γ)) (i : Nat) :
    wids (startTimer q i) = wids q := by
  unfold wids startTimer
  rw [List.map_map]
  apply List.map_congr_left
  intro c _
  by_cases h : c.wid = i <;> simp [Function.comp, h]

theorem wids_append {γ : Type} (q q' : List (Caller γ)) :
    wids (q ++ q') = wids q ++ wids q' := by
  simp [wids]

theorem pairwise_lt_get? {l : List Nat} (hs : List.Pairwise (· < ·) l) {i j x y : Nat}
    (hi : l.get? i = some x) (hj : l.get? j = some y) (hij : i < j) : x < y := by
  obtain ⟨hi', hx⟩ := List.get?_eq_some.mp hi
  obtain ⟨hj', hy⟩ := List.get?_eq_some.mp hj
  subst hx
  subst hy
  exact List.pairwise_iff_get.mp hs ⟨i, hi'⟩ ⟨j, hj'⟩ hij

theorem inv_preserve_acquire {γ : Type} (w : World γ) (t : NumInf) (ctx : γ)
    (hInv : Inv w) : Inv (acquireStep w t ctx) := by
  obtain ⟨hs, hql, hqil, hqs, hc, hhl⟩ := hInv
  simp only [acquireStep]
  split
  · -- fast path: only history and nextId change
    refine ⟨hs, ?_, ?_, hqs, ?_, ?_⟩
    · intro a ha
      exact Nat.lt_succ_of_lt (hql a ha)
    · intro a ha
      exact Nat.lt_succ_of_lt (hqil a ha)
    · intro a ha hnot
      obtain ⟨x, hx, hxa⟩ := hc a ha hnot
      exact ⟨x, List.mem_append_left _ hx, hxa⟩
    · intro x hx
      rcases List.mem_append.mp hx with h | h
      · exact Nat.lt_succ_of_lt (hhl x h)
      · simp only [List.mem_singleton] at h
        subst h
        exact Nat.lt_succ_self _
  · split
    · -- available ≠ 0: immediate grant issued to the shifted front
      split
      · -- empty queue: the front is the caller itself
        rename_i heq
        refine ⟨hs, ?_, ?_, ?_, ?_, ?_⟩
        · intro a ha
          exact Nat.lt_succ_of_lt (hql a ha)
        · intro a ha
          rcases List.mem_append.mp ha with h | h
          · exact Nat.lt_succ_of_lt (hqil a h)
          · simp only [List.mem_singleton] at h
            subst h
            exact Nat.lt_succ_self _
        · intro a ha
          exact List.mem_append_left _ (hqs a ha)
        · intro a ha hnot
          rcases List.mem_append.mp ha with h | h
          · obtain ⟨x, hx, hxa⟩ := hc a h hnot
            exact ⟨x, List.mem_append_left _ hx, hxa⟩
          · simp only [List.mem_singleton] at h
            subst h
            exact ⟨Completion.granted w.nextId ctx,
              List.mem_append_right _ (by simp), rfl⟩
        · intro x hx
          rcases List.mem_append.mp hx with h | h
          · exact Nat.lt_succ_of_lt (hhl x h)
          · simp only [List.mem_singleton] at h
            subst h
            exact Nat.lt_succ_self _
      · -- non-empty queue: front c is granted, caller appended (maybe timed)
        rename_i c restq heq
        have hwq : wids (if c.wid ≠ w.nextId ∧ t ≠ NumInf.inf then
              startTimer (restq ++ [⟨w.nextId, ctx, false⟩]) w.nextId
            else restq ++ [⟨w.nextId, ctx, false⟩]) = wids restq ++ [w.nextId] := by
          split
          · rw [wids_startTimer, wids_append]
            rfl
          · rw [wids_append]
            rfl
        have hwold : wids w.waitingList = c.wid :: wids restq := by
          rw [heq]
          rfl
        have hcmem : c.wid ∈ wids w.waitingList := by
          rw [hwold]
          exact List.mem_cons_self _ _
        have hrest_lt : ∀ a ∈ wids restq, a < w.nextId := by
          intro a ha
          exact hql a (by rw [hwold]; exact List.mem_cons_of_mem _ ha)
        refine ⟨?_, ?_, ?_, ?_, ?_, ?_⟩
        · rw [hwq]
          rw [hwold] at hs
          rw [List.pairwise_append]
          exact ⟨(List.pairwise_cons.mp hs).2, List.pairwise_singleton _ _,
            fun x hx y hy => by
              simp only [List.mem_singleton] at hy
              subst hy
              exact hrest_lt x hx⟩
        · rw [hwq]
          intro a ha
          rcases List.mem_append.mp ha with h | h
          · exact Nat.lt_succ_of_lt (hrest_lt a h)
          · simp only [List.mem_singleton] at h
            subst h
            exact Nat.lt_succ_self _
        · intro a ha
          rcases List.mem_append.mp ha with h | h
          · exact Nat.lt_succ_of_lt (hqil a h)
          · simp only [List.mem_singleton] at h
            subst h
            exact Nat.lt_succ_self _
        · rw [hwq]
          intro a ha
          rcases List.mem_append.mp ha with h | h
          · exact List.mem_append_left _
              (hqs a (by rw [hwold]; exact List.mem_cons_of_mem _ h))
          · exact List.mem_append_right _ h
        · rw [hwq]
          intro a ha hnot
          rcases List.mem_append.mp ha with h | h
          · by_cases hac : a = c.wid
            · subst hac
              exact ⟨Completion.granted c.wid c.context,
                List.mem_append_right _ (by simp), rfl⟩
            · have hnotold : a ∉ wids w.waitingList := by
                rw [hwold]
                intro hmm
                rcases List.mem_cons.mp hmm with h' | h'
                · exact hac h'
                · exact hnot (List.mem_append_left _ h')
              obtain ⟨x, hx, hxa⟩ := hc a h hnotold
              exact ⟨x, List.mem_append_left _ hx, hxa⟩
          · exact absurd (List.mem_append_right _ h) hnot
        · intro x hx
          rcases List.mem_append.mp hx with h | h
          · exact Nat.lt_succ_of_lt (hhl x h)
          · simp only [List.mem_singleton] at h
            subst h
            exact Nat.lt_succ_of_lt (hql _ hcmem)
    · -- available = 0: the caller stays queued
      have hwq : wids (if t ≠ NumInf.inf then
            startTimer (w.waitingList ++ [⟨w.nextId, ctx, false⟩]) w.nextId
          else w.waitingList ++ [⟨w.nextId, ctx, false⟩]) =
          wids w.waitingList ++ [w.nextId] := by
        split
        · rw [wids_startTimer, wids_append]
          rfl
        · rw [wids_append]
          rfl
      refine ⟨?_, ?_, ?_, ?_, ?_, ?_⟩
      · rw [hwq, List.pairwise_append]
        exact ⟨hs, List.pairwise_singleton _ _,
          fun x hx y hy => by
            simp only [List.mem_singleton] at hy
            subst hy
            exact hql x hx⟩
      · rw [hwq]
        intro a ha
        rcases List.mem_append.mp ha with h | h
        · exact Nat.lt_succ_of_lt (hql a h)
        · simp only [List.mem_singleton] at h
          subst h
          exact Nat.lt_succ_self _
      · intro a ha
        rcases List.mem_append.mp ha with h | h
        · exact Nat.lt_succ_of_lt (hqil a h)
        · simp only [List.mem_singleton] at h
          subst h
          exact Nat.lt_succ_self _
      · rw [hwq]
        intro a ha
        rcases List.mem_append.mp ha with h | h
        · exact List.mem_append_left _ (hqs a h)
        · exact List.mem_append_right _ h
      · rw [hwq]
        intro a ha hnot
        rcases List.mem_append.mp ha with h | h
        · exact hc a h (fun hmm => hnot (List.mem_append_left _ hmm))
        · exact absurd (List.mem_append_right _ h) hnot
      · intro x hx
        exact Nat.lt_succ_of_lt (hhl x hx)

theorem fifo_preserve_acquire {γ : Type} (w : World γ) (t : NumInf) (ctx : γ)
    (hInv : Inv w) (hP : FifoOk w) : FifoOk (acquireStep w t ctx) := by
  simp only [acquireStep]
  split
  · -- fast path appends a not-available completion: no new grants
    exact fifo_extend w [Completion.notAvailable w.nextId ctx] w.queuedIds hInv hP
      (fun a ha => Or.inl ha)
      (by
        intro m b cb hm
        cases m with
        | zero => exact absurd hm (by simp)
        | succ m' => exact absurd hm (by simp))
  · split
    · split
      · -- empty queue: grant for the fresh caller itself
        rename_i heq
        refine fifo_extend w [Completion.granted w.nextId ctx]
          (w.queuedIds ++ [w.nextId]) hInv hP ?_ ?_
        · intro a ha
          rcases List.mem_append.mp ha with h | h
          · exact Or.inl h
          · simp only [List.mem_singleton] at h
            subst h
            exact Or.inr (Nat.le_refl _)
        · intro m b cb hm a ha hab hna
          cases m with
          | succ m' => exact absurd hm (by simp)
          | zero =>
            have hm' : Completion.granted w.nextId ctx = Completion.granted b cb := by
              simpa using hm
            have hb : b = w.nextId := by
              injection hm' with h1 h2
              omega
            subst hb
            rcases List.mem_append.mp ha with h | h
            · have hnq : a ∉ wids w.waitingList := by
                rw [heq]
                simp [wids]
              obtain ⟨x, hx, hxa⟩ := hInv.compl a h hnq
              cases x with
              | notAvailable a' ctx' =>
                have : a' = a := hxa
                subst this
                exact absurd (List.mem_append_left _ hx) (hna ctx')
              | granted a' ctxa =>
                have : a' = a := hxa
                subst this
                obtain ⟨i, hi⟩ := List.get?_of_mem hx
                have hiL : i < w.history.length := get?_some_lt_length hi
                exact ⟨i, by omega, ctxa, by rw [List.get?_append hiL]; exact hi⟩
            · simp only [List.mem_singleton] at h
              exfalso
              omega
      · -- non-empty queue: grant for the old front c
        rename_i c restq heq
        refine fifo_extend w [Completion.granted c.wid c.context]
          (w.queuedIds ++ [w.nextId]) hInv hP ?_ ?_
        · intro a ha
          rcases List.mem_append.mp ha with h | h
          · exact Or.inl h
          · simp only [List.mem_singleton] at h
            subst h
            exact Or.inr (Nat.le_refl _)
        · intro m b cb hm a ha hab hna
          cases m with
          | succ m' => exact absurd hm (by simp)
          | zero =>
            have hm' : Completion.granted c.wid c.context = Completion.granted b cb := by
              simpa using hm
            have hb : b = c.wid := by
              injection hm' with h1 h2
              omega
            subst hb
            have hwold : wids w.waitingList = c.wid :: wids restq := by
              rw [heq]
              rfl
            have hclt : c.wid < w.nextId := hInv.q_lt _ (by rw [hwold]; exact List.mem_cons_self _ _)
            rcases List.mem_append.mp ha with h | h
            · have hnq : a ∉ wids w.waitingList := by
                rw [hwold]
                intro hmm
                rcases List.mem_cons.mp hmm with h' | h'
                · omega
                · have hsorted := hInv.sorted
                  rw [hwold] at hsorted
                  have := (List.pairwise_cons.mp hsorted).1 a h'
                  omega
              obtain ⟨x, hx, hxa⟩ := hInv.compl a h hnq
              cases x with
              | notAvailable a' ctx' =>
                have : a' = a := hxa
                subst this
                exact absurd (List.mem_append_left _ hx) (hna ctx')
              | granted a' ctxa =>
                have : a' = a := hxa
                subst this
                obtain ⟨i, hi⟩ := List.get?_of_mem hx
                have hiL : i < w.history.length := get?_some_lt_length hi
                exact ⟨i, by omega, ctxa, by rw [List.get?_append hiL]; exact hi⟩
            · simp only [List.mem_singleton] at h
              exfalso
              omega
    · -- available = 0: caller queued, no completion scheduled
      intro j b cb hj a ha hab hna
      have hb : b < w.nextId := hInv.hist_lt _ (List.get?_mem hj)
      rcases List.mem_append.mp ha with h | h
      · exact hP j b cb hj a h hab hna
      · simp only [List.mem_singleton] at h
        exfalso
        omega

theorem inv_preserve_release {γ : Type} (w : World γ) (hInv : Inv w) :
    Inv (releaseStep w) := by
  obtain ⟨k, hk, heq⟩ := drain_spec w.total w.waitingList (w.acquired - 1)
  have hre : releaseStep w = { w with
      acquired := w.acquired - 1 + k,
      waitingList := w.waitingList.drop k,
      history := w.history ++ (w.waitingList.take k).map
        (fun c => Completion.granted c.wid c.context) } := by
    unfold releaseStep
    rw [heq]
  rw [hre]
  obtain ⟨hs, hql, hqil, hqs, hc, hhl⟩ := hInv
  have hsub : ∀ a ∈ wids (w.waitingList.drop k), a ∈ wids w.waitingList := by
    intro a ha
    obtain ⟨cc, hcc, hcw⟩ := List.mem_map.mp ha
    subst hcw
    exact List.mem_map_of_mem _ ((List.drop_sublist k _).subset hcc)
  have hsplit : wids w.waitingList =
      wids (w.waitingList.take k) ++ wids (w.waitingList.drop k) := by
    rw [← wids_append, List.take_append_drop]
  refine ⟨?_, ?_, hqil, ?_, ?_, ?_⟩
  · exact List.Pairwise.sublist ((List.drop_sublist k _).map _) hs
  · intro a ha
    exact hql a (hsub a ha)
  · intro a ha
    exact hqs a (hsub a ha)
  · intro a ha hnot
    by_cases hmem : a ∈ wids (w.waitingList.take k)
    · obtain ⟨cc, hcc, hcw⟩ := List.mem_map.mp hmem
      exact ⟨Completion.granted cc.wid cc.context,
        List.mem_append_right _ (List.mem_map_of_mem _ hcc), hcw⟩
    · have hnq : a ∉ wids w.waitingList := by
        rw [hsplit]
        intro hmm
        rcases List.mem_append.mp hmm with h | h
        · exact hmem h
        · exact hnot h
      obtain ⟨x, hx, hxa⟩ := hc a ha hnq
      exact ⟨x, List.mem_append_left _ hx, hxa⟩
  · intro x hx
    rcases List.mem_append.mp hx with h | h
    · exact hhl x h
    · obtain ⟨cc, hcc, hxeq⟩ := List.mem_map.mp h
      subst hxeq
      exact hql cc.wid (List.mem_map_of_mem _ ((List.take_sublist k _).subset hcc))

theorem fifo_preserve_release {γ : Type} (w : World γ) (hInv : Inv w) (hP : FifoOk w) :
    FifoOk (releaseStep w) := by
  obtain ⟨k, hk, heq⟩ := drain_spec w.total w.waitingList (w.acquired - 1)
  have hre : releaseStep w = { w with
      acquired := w.acquired - 1 + k,
      waitingList := w.waitingList.drop k,
      history := w.history ++ (w.waitingList.take k).map
        (fun c => Completion.granted c.wid c.context) } := by
    unfold releaseStep
    rw [heq]
  rw [hre]
  refine fifo_extend w _ w.queuedIds hInv hP (fun a ha => Or.inl ha) ?_
  intro m b cb hm a ha hab hna
  rw [List.get?_map] at hm
  cases hqm : (w.waitingList.take k).get? m with
  | none =>
    rw [hqm] at hm
    exact absurd hm (by simp)
  | some cm =>
    rw [hqm] at hm
    have hm' : Completion.granted cm.wid cm.context = Completion.granted b cb := by
      simpa using hm
    have hb : b = cm.wid := by
      injection hm' with h1 h2
      omega
    subst hb
    have hmk : m < k := by
      have := get?_some_lt_length hqm
      rw [List.length_take] at this
      omega
    have hqm' : w.waitingList.get? m = some cm := by
      rw [← List.get?_take hmk]
      exact hqm
    by_cases haq : a ∈ wids w.waitingList
    · -- a still queued: it sits strictly before cm, so it is in the same batch
      obtain ⟨ca, hca, hcaw⟩ := List.mem_map.mp haq
      obtain ⟨pa, hpa⟩ := List.get?_of_mem hca
      have hwm : (wids w.waitingList).get? m = some cm.wid := by
        show (w.waitingList.map (fun c => c.wid)).get? m = some cm.wid
        rw [List.get?_map, hqm']
        rfl
      have hwpa : (wids w.waitingList).get? pa = some ca.wid := by
        show (w.waitingList.map (fun c => c.wid)).get? pa = some ca.wid
        rw [List.get?_map, hpa]
        rfl
      have hpam : pa < m := by
        rcases Nat.lt_trichotomy pa m with h | h | h
        · exact h
        · exfalso
          subst h
          rw [hpa] at hqm'
          injection hqm' with h'
          subst h'
          omega
        · exfalso
          have := pairwise_lt_get? hInv.sorted hwm hwpa h
          omega
      refine ⟨w.history.length + pa, by omega, ca.context, ?_⟩
      rw [List.get?_append_right (Nat.le_add_right _ _), Nat.add_sub_cancel_left,
        List.get?_map, List.get?_take (by omega), hpa]
      show some (Completion.granted ca.wid ca.context) =
        some (Completion.granted a ca.context)
      rw [hcaw]
    · obtain ⟨x, hx, hxa⟩ := hInv.compl a ha haq
      cases x with
      | notAvailable a' ctx' =>
        have : a' = a := hxa
        subst this
        exact absurd (List.mem_append_left _ hx) (hna ctx')
      | granted a' ctxa =>
        have : a' = a := hxa
        subst this
        obtain ⟨i, hi⟩ := List.get?_of_mem hx
        have hiL : i < w.history.length := get?_some_lt_length hi
        exact ⟨i, by omega, ctxa, by rw [List.get?_append hiL]; exact hi⟩

theorem inv_preserve_fire {γ : Type} (w : World γ) (wid : Nat) (hInv : Inv w) :
    Inv (fireStep w wid) := by
  obtain ⟨hs, hql, hqil, hqs, hc, hhl⟩ := hInv
  unfold fireStep
  split
  · split
    · rename_i c hfind
      have hcq : c ∈ w.waitingList := List.mem_of_find?_eq_some hfind
      have hcw : c.wid = wid := by simpa using List.find?_some hfind
      have hpc : (fun c' => decide (c'.wid = wid)) c = true := by
        simp [hcw]
      obtain ⟨c₀, l₁, l₂, hnl₁, hpc₀, hql₀, herase⟩ :=
        List.exists_of_eraseP (p := fun c' => decide (c'.wid = wid)) hcq hpc
      have hc₀w : c₀.wid = wid := by simpa using hpc₀
      have hsubset : ∀ a ∈ wids (w.waitingList.eraseP (fun c' => c'.wid = wid)),
          a ∈ wids w.waitingList := by
        intro a ha
        obtain ⟨cc, hcc, hcw'⟩ := List.mem_map.mp ha
        subst hcw'
        exact List.mem_map_of_mem _ ((List.eraseP_sublist _).subset hcc)
      refine ⟨?_, ?_, hqil, ?_, ?_, ?_⟩
      · exact List.Pairwise.sublist ((List.eraseP_sublist _).map _) hs
      · intro a ha
        exact hql a (hsubset a ha)
      · intro a ha
        exact hqs a (hsubset a ha)
      · intro a ha hnot
        by_cases hac : a = c.wid
        · subst hac
          exact ⟨Completion.notAvailable c.wid c.context,
            List.mem_append_right _ (by simp), rfl⟩
        · have hnq : a ∉ wids w.waitingList := by
            intro hmm
            obtain ⟨cc, hcc, hcw'⟩ := List.mem_map.mp hmm
            subst hcw'
            rw [hql₀] at hcc
            rcases List.mem_append.mp hcc with h | h
            · exact hnot (by
                rw [herase]
                exact List.mem_map_of_mem _ (List.mem_append_left _ h))
            · rcases List.mem_cons.mp h with h' | h'
              · exact hac (by rw [h', hc₀w, hcw])
              · exact hnot (by
                  rw [herase]
                  exact List.mem_map_of_mem _ (List.mem_append_right _ h'))
          obtain ⟨x, hx, hxa⟩ := hc a ha hnq
          exact ⟨x, List.mem_append_left _ hx, hxa⟩
      · intro x hx
        rcases List.mem_append.mp hx with h | h
        · exact hhl x h
        · simp only [List.mem_singleton] at h
          subst h
          exact hql c.wid (List.mem_map_of_mem _ hcq)
    · exact ⟨hs, hql, hqil, hqs, hc, hhl⟩
  · exact ⟨hs, hql, hqil, hqs, hc, hhl⟩

theorem fifo_preserve_fire {γ : Type} (w : World γ) (wid : Nat) (hInv : Inv w)
    (hP : FifoOk w) : FifoOk (fireStep w wid) := by
  unfold fireStep
  split
  · split
    · exact fifo_extend w [Completion.notAvailable _ _] w.queuedIds hInv hP
        (fun a ha => Or.inl ha)
        (by
          intro m b cb hm
          cases m with
          | zero => exact absurd hm (by simp)
          | succ m' => exact absurd hm (by simp))
    · exact hP
  · exact hP

theorem init_inv {γ : Type} (T : Nat) : Inv (initWorld T : World γ) := by
  refine ⟨?_, ?_, ?_, ?_, ?_, ?_⟩ <;> simp [initWorld, wids]

theorem init_fifo {γ : Type} (T : Nat) : FifoOk (initWorld T : World γ) := by
  intro j b ctxb hj
  exact absurd hj (by simp [initWorld])

theorem exec_inv_fifo {γ : Type} (ops : List (Op γ)) : ∀ w : World γ,
    Inv w → FifoOk w → Inv (exec w ops) ∧ FifoOk (exec w ops) := by
  induction ops with
  | nil => intro w h1 h2; exact ⟨h1, h2⟩
  | cons op ops ih =>
    intro w h1 h2
    show Inv (exec (step w op) ops) ∧ FifoOk (exec (step w op) ops)
    cases op with
    | acquire t ctx =>
      exact ih _ (inv_preserve_acquire w t ctx h1) (fifo_preserve_acquire w t ctx h1 h2)
    | release =>
      exact ih _ (inv_preserve_release w h1) (fifo_preserve_release w h1 h2)
    | fire wid =>
      exact ih _ (inv_preserve_fire w wid h1) (fifo_preserve_fire w wid h1 h2)

/-- C3 (counterexample to the unconditional claim).  Two literal readings of
the claim fail on the code:
(1) with Semaphore(1) and the trace acquire(∞); acquire(100); acquire(∞);
timer-of-waiter-1 fires; release — waiter 1 was submitted strictly before
waiter 2 and both were queued, yet waiter 2 is granted (history index 2)
while waiter 1 is NEVER granted: it timed out first;
(2) a zero-timeout acquire issued while no permit is free completes with the
not-available failure WITHOUT ever being pushed onto the FIFO queue
(queuedIds stays [0]), so not literally every request goes through the queue. -/
theorem sem_fifo_unconditional_counterexample :
    ((exec (initWorld 1 : World Unit)
        [Op.acquire NumInf.inf (), Op.acquire (NumInf.fin 100) (),
         Op.acquire NumInf.inf (), Op.fire 1, Op.release]).queuedIds = [0, 1, 2] ∧
      (exec (initWorld 1 : World Unit)
        [Op.acquire NumInf.inf (), Op.acquire (NumInf.fin 100) (),
         Op.acquire NumInf.inf (), Op.fire 1, Op.release]).history =
        [Completion.granted 0 (), Completion.notAvailable 1 (),
         Completion.granted 2 ()]) ∧
    ((acquireStep (exec (initWorld 1 : World Unit) [Op.acquire NumInf.inf ()])
        (NumInf.fin 0) ()).queuedIds = [0] ∧
      (acquireStep (exec (initWorld 1 : World Unit) [Op.acquire NumInf.inf ()])
        (NumInf.fin 0) ()).history =
        [Completion.granted 0 (), Completion.notAvailable 1 ()]) := by
  decide

/-- C3 (amended).  FIFO fairness.
(1) Every acquire call outside the zero-timeout fast-fail path pushes its
caller onto the FIFO waiting queue — even a request that is granted within
the same call (the ghost `queuedIds` records exactly the `_waitingList.push`
calls, and ids are allocated in submission order).
(2) In any execution from a fresh semaphore: whenever waiter b's grant sits at
history position j, any waiter a that was submitted strictly earlier (a < b),
was queued, and never received a not-available completion (so it neither
timed out nor fast-failed) already has a grant at some position i ≤ j —
earlier-submitted queued waiters are granted no later. -/
theorem semaphore_fifo_fairness {γ : Type} (T : Nat) (ops : List (Op γ)) :
    (∀ (w : World γ) (t : NumInf) (ctx : γ), ¬(w.available = 0 ∧ t = NumInf.fin 0) →
      (acquireStep w t ctx).queuedIds = w.queuedIds ++ [w.nextId]) ∧
    (∀ j b ctxb,
      (exec (initWorld T : World γ) ops).history.get? j = some (Completion.granted b ctxb) →
      ∀ a, a ∈ (exec (initWorld T : World γ) ops).queuedIds → a < b →
        (∀ ctx, Completion.notAvailable a ctx ∉ (exec (initWorld T : World γ) ops).history) →
        ∃ i, i ≤ j ∧ ∃ ctxa,
          (exec (initWorld T : World γ) ops).history.get? i =
            some (Completion.granted a ctxa)) := by
  constructor
  · intro w t ctx h
    simp only [acquireStep]
    rw [if_neg h]
    split
    · split <;> rfl
    · split <;> rfl
  · exact (exec_inv_fifo ops (initWorld T) (init_inv T) (init_fifo T)).2

/-- Witness for C3: on Semaphore(1) with two infinite-wait acquires and one
release, the theorem instantiates at a = 0, b = 1, j = 1 (waiter 1's grant),
yielding waiter 0's earlier grant; and any acquire outside the fast-fail path
queues its caller. -/
theorem semaphore_fifo_fairness_witness :
    (¬((initWorld 1 : World Unit).available = 0 ∧ NumInf.inf = NumInf.fin 0) ∧
      (acquireStep (initWorld 1 : World Unit) NumInf.inf ()).queuedIds =
        (initWorld 1 : World Unit).queuedIds ++ [(initWorld 1 : World Unit).nextId]) ∧
    (∃ i, i ≤ 1 ∧ ∃ ctxa,
      (exec (initWorld 1 : World Unit)
        [Op.acquire NumInf.inf (), Op.acquire NumInf.inf (), Op.release]).history.get? i =
          some (Completion.granted 0 ctxa)) := by
  constructor
  · exact ⟨by decide, (semaphore_fifo_fairness 1 ([] : List (Op Unit))).1 _ _ _ (by decide)⟩
  · exact (semaphore_fifo_fairness 1
      [Op.acquire NumInf.inf (), Op.acquire NumInf.inf (), Op.release]).2 1 1 ()
      (by decide) 0 (by decide) (by decide)
      (fun ctx => by cases ctx; decide)

/-- C1 (failing input, evaluated).  A Pool constructed with capacity 0:
`options.capacity || Pool.defaultCapacity` maps the falsy 0 to 5, so the pool
gets capacity 5, an internal RingBuffer(5) and Semaphore(5) ARE created,
getResource routes through the semaphore (not directly to the provider), and
releaseResource is NOT a no-op (it writes the buffer and releases a permit).
With capacity Infinity the code does behave as the claim says (no
buffer/semaphore, direct provider call, no-op release), so 0 and Infinity are
not the same as claimed and as the constructor's own doc comment states. -/
theorem pool_capacity_zero_creates_buffer :
    mkPool Nat ⟨some (NumInf.fin 0), none, true⟩ =
      .ok ⟨NumInf.fin 5, NumInf.fin 30000, some (RingBuffer.new 5), some (initWorld 5)⟩ ∧
    ((⟨NumInf.fin 5, NumInf.fin 30000, some (RingBuffer.new 5),
        some (initWorld 5)⟩ : PoolM Nat).getResource).2 = false ∧
    (⟨NumInf.fin 5, NumInf.fin 30000, some (RingBuffer.new 5),
        some (initWorld 5)⟩ : PoolM Nat).releaseResource 0 ≠
      .ok ⟨NumInf.fin 5, NumInf.fin 30000, some (RingBuffer.new 5), some (initWorld 5)⟩ ∧
    mkPool Nat ⟨some NumInf.inf, none, true⟩ =
      .ok ⟨NumInf.inf, NumInf.fin 30000, none, none⟩ ∧
    ((⟨NumInf.inf, NumInf.fin 30000, none, none⟩ : PoolM Nat).getResource).2 = true ∧
    (⟨NumInf.inf, NumInf.fin 30000, none, none⟩ : PoolM Nat).releaseResource 0 =
      .ok ⟨NumInf.inf, NumInf.fin 30000, none, none⟩ := by
  decide

/-- C6 (failing input, evaluated).  A Pool constructed with timeout 0:
`options.timeout || Pool.defaultTimeout` maps the falsy 0 to 30000, so a
capacity-1 pool whose only permit is taken does NOT fail a second getResource
immediately: the second caller is pushed on the semaphore queue with a
30000 ms timer and no not-available completion is scheduled. -/
theorem pool_timeout_zero_waits :
    mkPool Nat ⟨some (NumInf.fin 1), some (NumInf.fin 0), true⟩ =
      .ok ⟨NumInf.fin 1, NumInf.fin 30000, some (RingBuffer.new 1), some (initWorld 1)⟩ ∧
    ((((⟨NumInf.fin 1, NumInf.fin 30000, some (RingBuffer.new 1),
          some (initWorld 1)⟩ : PoolM Nat).getResource).1.getResource).1.semaphore =
      some ⟨1, 1, [⟨1, (), true⟩], [1], [Completion.granted 0 ()], 2, [0, 1]⟩) := by
  decide

/-- C4.  In bounded mode, releaseResource writes the resource into the
RingBuffer and only then runs the Semaphore release on the already-written
state: the resulting pool is exactly write-then-release, and the buffer the
release's grants see has count = old count + 1 > 0 (the drain loop never
touches the buffer).  Moreover the granted caller's continuation can never
raise a buffer error: its read is guarded by canRead, so for every buffer
state and provider outcome the continuation calls back instead of raising. -/
theorem pool_release_order_grant_safe {ρ ε : Type} (p : PoolM ρ) (rb : RingBuffer ρ)
    (w : World Unit) (r : ρ)
    (hcap : p.capacity.isBoundedCap = true)
    (hbuf : p.buffer = some rb) (hsem : p.semaphore = some w)
    (hfull : rb.isFull = false) :
    (p.releaseResource r =
        .ok { p with buffer := some (rb.write r).2, semaphore := some (releaseStep w) } ∧
      (rb.write r).2.count = rb.count + 1 ∧ 0 < (rb.write r).2.count) ∧
    (∀ (rb' : RingBuffer ρ) (pres : Except ε ρ) (e : RBError),
      (acquireCont rb' pres).1 ≠ ContRes.raised e) := by
  have hcw : rb.count < rb.capacity := by
    have h := hfull
    simp [RingBuffer.isFull, RingBuffer.canWrite] at h
    exact h
  refine ⟨⟨?_, ?_, ?_⟩, ?_⟩
  · unfold PoolM.releaseResource
    simp only [hcap, hbuf, hsem, if_true]
    rw [write_eq rb r hcw]
  · rw [write_eq rb r hcw]
  · rw [write_eq rb r hcw]
    show 0 < rb.count + 1
    omega
  · intro rb' pres e
    unfold acquireCont
    by_cases hcr : rb'.canRead = true
    · have hpos : 0 < rb'.count := by
        have h := hcr
        simp [RingBuffer.canRead] at h
        exact h
      simp [hcr, read_eq rb' hpos]
    · have hcr' : rb'.canRead = false := by
        cases h : rb'.canRead
        · rfl
        · exact absurd h hcr
      rw [hcr']
      simp only [Bool.false_eq_true, if_false]
      cases pres <;> simp

/-- Witness for C4: a capacity-1 bounded pool with an empty (hence not full)
buffer; releasing resource 7 writes it and releases the permit. -/
theorem pool_release_order_grant_safe_witness :
    ((⟨NumInf.fin 1, NumInf.fin 30000, some (RingBuffer.new 1),
        some (initWorld 1)⟩ : PoolM Nat).capacity.isBoundedCap = true ∧
      (RingBuffer.new (α := Nat) 1).isFull = false) ∧
    (((⟨NumInf.fin 1, NumInf.fin 30000, some (RingBuffer.new 1),
          some (initWorld 1)⟩ : PoolM Nat).releaseResource 7 =
        .ok { (⟨NumInf.fin 1, NumInf.fin 30000, some (RingBuffer.new 1),
            some (initWorld 1)⟩ : PoolM Nat) with
          buffer := some ((RingBuffer.new 1).write 7).2,
          semaphore := some (releaseStep (initWorld 1)) } ∧
      ((RingBuffer.new (α := Nat) 1).write 7).2.count = (RingBuffer.new (α := Nat) 1).count + 1 ∧
      0 < ((RingBuffer.new (α := Nat) 1).write 7).2.count) ∧
    (∀ (rb' : RingBuffer Nat) (pres : Except Unit Nat) (e : RBError),
      (acquireCont rb' pres).1 ≠ ContRes.raised e)) :=
  ⟨⟨by decide, by decide⟩,
    pool_release_order_grant_safe
      (⟨NumInf.fin 1, NumInf.fin 30000, some (RingBuffer.new 1), some (initWorld 1)⟩ : PoolM Nat)
      (RingBuffer.new 1) (initWorld 1) 7 (by decide) rfl rfl (by decide)⟩

/-- C9.  Provider failure on the lazy-provision path: when the grant's
continuation finds the buffer unreadable it calls the provider; a provider
error is forwarded to the pool callback verbatim, and the pool state is
returned exactly unchanged — the semaphore permit is NOT released (acquired
count untouched) and the buffer contents are untouched. -/
theorem pool_provider_failure_frame {ρ ε : Type} (p : PoolM ρ) (rb : RingBuffer ρ)
    (e : ε) (hbuf : p.buffer = some rb) (hlazy : rb.canRead = false) :
    p.runGrantCont (Except.error e) =
      some (ContRes.callback (Except.error e), p) := by
  have hcont : acquireCont (ε := ε) rb (Except.error e) =
      (ContRes.callback (Except.error e), rb) := by
    unfold acquireCont
    rw [hlazy]
    simp
  unfold PoolM.runGrantCont
  rw [hbuf]
  simp only [Option.map_some']
  rw [hcont]
  rcases p with ⟨pc, pt, pb, ps⟩
  simp only at hbuf
  rw [hbuf]

/-- Witness for C9: a bounded pool with an empty buffer (lazy path); the
provider error is the string passed through unchanged and the pool state is
identical. -/
theorem pool_provider_failure_frame_witness :
    ((⟨NumInf.fin 1, NumInf.fin 30000, some (RingBuffer.new 1),
        some (initWorld 1)⟩ : PoolM Nat).buffer = some (RingBuffer.new 1) ∧
      (RingBuffer.new (α := Nat) 1).canRead = false) ∧
    (⟨NumInf.fin 1, NumInf.fin 30000, some (RingBuffer.new 1),
        some (initWorld 1)⟩ : PoolM Nat).runGrantCont (Except.error "boom") =
      some (ContRes.callback (Except.error "boom"),
        ⟨NumInf.fin 1, NumInf.fin 30000, some (RingBuffer.new 1), some (initWorld 1)⟩) :=
  ⟨⟨rfl, by decide⟩,
    pool_provider_failure_frame
      (⟨NumInf.fin 1, NumInf.fin 30000, some (RingBuffer.new 1), some (initWorld 1)⟩ : PoolM Nat)
      (RingBuffer.new 1) "boom" rfl (by decide)⟩

/-- C10.  Construction boundary: a Semaphore built with total < 1 fails; a
RingBuffer built with capacity < 1 or with any non-finite capacity
(Infinity via the explicit guard, -Infinity via `< 1`, NaN via the Array
RangeError) fails.  The Except embedding returns no object on failure,
matching JS `new` aborting with no partially constructed object. -/
theorem construction_boundary :
    (∀ t : JsNum, t.ltOne = true → mkSemaphoreJs t = .error .invalidTotal) ∧
    (∀ c : JsNum, (c.ltOne = true ∨ c = JsNum.inf ∨ c = JsNum.nan) →
      ∃ e, mkRingBufferJs Unit c = .error e) := by
  constructor
  · intro t ht
    unfold mkSemaphoreJs
    rw [ht]
    rfl
  · intro c hc
    rcases hc with h | h | h
    · refine ⟨.invalidCapacity, ?_⟩
      unfold mkRingBufferJs
      rw [h]
      rfl
    · subst h
      exact ⟨.invalidCapacity, by decide⟩
    · subst h
      exact ⟨.invalidArrayLength, by decide⟩

/-- Witness for C10: Semaphore(0) fails the guard; RingBuffer(NaN) fails. -/
theorem construction_boundary_witness :
    ((JsNum.num 0).ltOne = true ∧
      mkSemaphoreJs (JsNum.num 0) = .error .invalidTotal) ∧
    (((JsNum.nan).ltOne = true ∨ JsNum.nan = JsNum.inf ∨ JsNum.nan = JsNum.nan) ∧
      ∃ e, mkRingBufferJs Unit JsNum.nan = .error e) :=
  ⟨⟨by decide, construction_boundary.1 (JsNum.num 0) (by decide)⟩,
    ⟨Or.inr (Or.inr rfl), construction_boundary.2 JsNum.nan (Or.inr (Or.inr rfl))⟩⟩

end ConnPool

